import Mathlib

/-!
Verification of the PDF tag-remover core (`src/pdf_tag_remover/src/main.rs`).

The development shallowly embeds the Rust program:

* bytes are `List Nat` (each entry < 256 where it matters),
* `String::from_utf8_lossy` is `utf8DecodeLossy`, a faithful byte-level
  UTF-8 decoder with maximal-subpart replacement-character substitution,
* `str::as_bytes` on the rebuilt string is `utf8Encode`,
* the compiled default regex `\x7b\x7b[^\x7d]+\x7d\x7d` is modelled by the
  scanner `matchAt`/`findFromF` (leftmost, non-overlapping matches), and an
  arbitrary compiled pattern by its `find_iter` span list,
* `lopdf::Stream` is `Stream` (an order-preserving dictionary plus a byte
  payload); `Stream::decompress` is `decompress`, parametrised by the codec
  `dec` standing for the library's filter pipeline: on a stream that carries
  a Filter entry and whose payload the codec decodes, it stores the decoded
  payload in place, drops the Filter entry and resets Length (`set_content`);
  otherwise it leaves the stream untouched,
* `process_content_stream`, `remove_tags_from_pdf` and the HTTP handler
  `remove_tags` are translated line by line, with the external collaborators
  (PDF parser/serialiser, base64, custom-regex compilation) as explicit
  function parameters.
-/

namespace PdfTagRemover

/-! ## Characters and UTF-8 -/

/-- The space character, the filler byte used for replacements. -/
def sp : Char := Char.ofNat 32

/-- The opening brace character (code point 123). -/
def lb : Char := Char.ofNat 123

/-- The closing brace character (code point 125). -/
def rb : Char := Char.ofNat 125

/-- The Unicode replacement character U+FFFD. -/
def repl : Char := Char.ofNat 65533

/-- UTF-8 encoding of a single scalar value, as `str` stores it. -/
def utf8EncodeChar (c : Char) : List Nat :=
  if c.toNat < 128 then [c.toNat]
  else if c.toNat < 2048 then [192 + c.toNat / 64, 128 + c.toNat % 64]
  else if c.toNat < 65536 then
    [224 + c.toNat / 4096, 128 + c.toNat / 64 % 64, 128 + c.toNat % 64]
  else
    [240 + c.toNat / 262144, 128 + c.toNat / 4096 % 64, 128 + c.toNat / 64 % 64, 128 + c.toNat % 64]

/-- `String::as_bytes`: the UTF-8 byte sequence of a character list. -/
def utf8Encode (cs : List Char) : List Nat :=
  (cs.map utf8EncodeChar).flatten

/-- Byte length of the UTF-8 form of `cs`; this is what `str::len` returns. -/
def utf8Len (cs : List Char) : Nat :=
  (utf8Encode cs).length

/-- Is `b` a UTF-8 continuation byte? -/
def contByte (b : Nat) : Bool := decide (128 ≤ b ∧ b < 192)

/-- Lower bound of the second byte of a three-byte sequence (lead `b0`). -/
def lo2 (b0 : Nat) : Nat := if b0 = 224 then 160 else 128

/-- Upper bound (exclusive) of the second byte of a three-byte sequence. -/
def hi2 (b0 : Nat) : Nat := if b0 = 237 then 160 else 192

/-- Lower bound of the second byte of a four-byte sequence (lead `b0`). -/
def lo3 (b0 : Nat) : Nat := if b0 = 240 then 144 else 128

/-- Upper bound (exclusive) of the second byte of a four-byte sequence. -/
def hi3 (b0 : Nat) : Nat := if b0 = 244 then 144 else 192

/-- `String::from_utf8_lossy`: decode bytes as UTF-8, substituting one
U+FFFD for each maximal invalid subpart, exactly as Rust's validator does
(second-byte ranges depend on the lead byte; a valid but incomplete prefix
is consumed as a unit). -/
def utf8DecodeLossy : List Nat → List Char
  | [] => []
  | b0 :: r =>
    if b0 < 128 then Char.ofNat b0 :: utf8DecodeLossy r
    else if b0 < 194 then repl :: utf8DecodeLossy r
    else if b0 < 224 then
      match r with
      | [] => [repl]
      | b1 :: r2 =>
        if contByte b1 then
          Char.ofNat ((b0 - 192) * 64 + (b1 - 128)) :: utf8DecodeLossy r2
        else repl :: utf8DecodeLossy (b1 :: r2)
    else if b0 < 240 then
      match r with
      | [] => [repl]
      | b1 :: r2 =>
        if lo2 b0 ≤ b1 ∧ b1 < hi2 b0 then
          match r2 with
          | [] => [repl]
          | b2 :: r3 =>
            if contByte b2 then
              Char.ofNat ((b0 - 224) * 4096 + (b1 - 128) * 64 + (b2 - 128)) :: utf8DecodeLossy r3
            else repl :: utf8DecodeLossy (b2 :: r3)
        else repl :: utf8DecodeLossy (b1 :: r2)
    else if b0 < 245 then
      match r with
      | [] => [repl]
      | b1 :: r2 =>
        if lo3 b0 ≤ b1 ∧ b1 < hi3 b0 then
          match r2 with
          | [] => [repl]
          | b2 :: r3 =>
            if contByte b2 then
              match r3 with
              | [] => [repl]
              | b3 :: r4 =>
                if contByte b3 then
                  Char.ofNat ((b0 - 240) * 262144 + (b1 - 128) * 4096 + (b2 - 128) * 64 + (b3 - 128))
                    :: utf8DecodeLossy r4
                else repl :: utf8DecodeLossy (b3 :: r4)
            else repl :: utf8DecodeLossy (b2 :: r3)
        else repl :: utf8DecodeLossy (b1 :: r2)
    else repl :: utf8DecodeLossy r

/-- A byte list is valid UTF-8 iff lossy decoding followed by re-encoding
reproduces it exactly. -/
def ValidUtf8 (bs : List Nat) : Prop :=
  utf8Encode (utf8DecodeLossy bs) = bs

instance (bs : List Nat) : Decidable (ValidUtf8 bs) := by
  unfold ValidUtf8; infer_instance

/-! ## The lopdf object model (the slice the program touches) -/

/-- A dictionary value (`lopdf::Object`), restricted to the shapes the
program reads or writes; `other` stands for any value it never inspects. -/
inductive PObj where
  | integer (n : Int)
  | name (s : String)
  | other (k : Nat)
deriving DecidableEq, Repr

/-- `lopdf::Dictionary`: an insertion-ordered key/value map. -/
def Dict := List (String × PObj)
deriving DecidableEq, Repr

/-- Dictionary lookup. -/
def dget : Dict → String → Option PObj
  | [], _ => none
  | (k, v) :: rest, key => if k = key then some v else dget rest key

/-- Dictionary update: replace the value in place if the key is present,
append otherwise (`Dictionary::set`). -/
def dset : Dict → String → PObj → Dict
  | [], key, v => [(key, v)]
  | (k, w) :: rest, key, v =>
    if k = key then (key, v) :: rest else (k, w) :: dset rest key v

/-- Dictionary removal (`Dictionary::remove`). -/
def dremove (d : Dict) (key : String) : Dict :=
  d.filter (fun kv => kv.1 ≠ key)

/-- `lopdf::Stream`: an encoding dictionary plus the stored byte payload. -/
structure Stream where
  dict : Dict
  content : List Nat
deriving DecidableEq, Repr

/-- A decompression codec: the lopdf filter pipeline applied to a payload.
`none` models an unsupported or corrupt filter. -/
def Codec := List Nat → Option (List Nat)

/-- `lopdf::Stream::decompress`: when the dictionary carries a Filter entry
and the codec can decode the stored payload, store the decoded bytes in
place, drop the Filter entry and reset Length (this is lopdf's
`set_content`); on any failure, or without a Filter entry, do nothing. -/
def decompress (dec : Codec) (s : Stream) : Stream :=
  match dget s.dict "Filter" with
  | none => s
  | some _ =>
    match dec s.content with
    | none => s
    | some d =>
      { dict := dset (dremove s.dict "Filter") "Length" (PObj.integer (Int.ofNat d.length))
        content := d }

/-! ## The default tag pattern -/

/-- Does the default regex match at the head of `cs`?  The pattern is: two
opening braces, a non-empty run of non-closing-brace characters, two closing
braces; the returned value is the match length in characters.  Because the
inner class excludes the closing brace, the regex engine's leftmost-first
match at a fixed position is exactly this greedy shape. -/
def matchAt (cs : List Char) : Option Nat :=
  match cs with
  | c0 :: c1 :: rest =>
    if c0 = lb ∧ c1 = lb then
      match rest.dropWhile (fun c => c != rb) with
      | d0 :: d1 :: _ =>
        if 1 ≤ (rest.takeWhile (fun c => c != rb)).length ∧ d0 = rb ∧ d1 = rb then
          some ((rest.takeWhile (fun c => c != rb)).length + 4)
        else none
      | _ => none
    else none
  | _ => none

/-- `Regex::find_iter` for the default pattern: scan left to right, report
each non-overlapping match as an absolute (start, length) character span,
and resume after the match.  `fuel` bounds the recursion; `cs.length` fuel
is always enough. -/
def findFromF : Nat → Nat → List Char → List (Nat × Nat)
  | 0, _, _ => []
  | _, _, [] => []
  | fuel + 1, pos, c :: rest =>
    match matchAt (c :: rest) with
    | some n => (pos, n) :: findFromF fuel (pos + n) ((c :: rest).drop n)
    | none => findFromF fuel (pos + 1) rest

/-- The span list of the compiled default pattern on `cs`. -/
def default_find (cs : List Char) : List (Nat × Nat) :=
  findFromF cs.length 0 cs

/-- `Regex::replace_all` when every replacement is a space run of the
match's byte length: copy the text before each span, emit `utf8Len` spaces
for the matched text (that is `caps[0].len()` spaces — a byte count), and
continue after it.  `pos` is the absolute position of the head of `cs`. -/
def replaceSpansFrom : List Char → Nat → List (Nat × Nat) → List Char
  | cs, _, [] => cs
  | cs, pos, (s, l) :: rest =>
    cs.take (s - pos)
      ++ List.replicate (utf8Len ((cs.drop (s - pos)).take l)) sp
      ++ replaceSpansFrom ((cs.drop (s - pos)).drop l) (s + l) rest

/-- A compiled pattern, abstractly: its `find_iter` span list. -/
def FindFn := List Char → List (Nat × Nat)

/-- `process_content_stream`: best-effort decompress, lossily decode the
stored payload, count the pattern's matches; if any were found, commit the
replaced text's UTF-8 bytes, drop the Filter and DecodeParms entries and
set Length to the new payload's byte length; return the match count. -/
def process_content_stream (find : FindFn) (dec : Codec) (s : Stream) : Stream × Nat :=
  let s1 := decompress dec s
  let cs := utf8DecodeLossy s1.content
  let original_count := (find cs).length
  if 0 < original_count then
    let out := utf8Encode (replaceSpansFrom cs 0 (find cs))
    ({ dict := dset (dremove (dremove s1.dict "Filter") "DecodeParms") "Length"
                 (PObj.integer (Int.ofNat out.length))
       content := out }, original_count)
  else (s1, 0)

/-! ## Document level -/

/-- One object of the parsed document graph: a stream, or anything else
(`other` carries an opaque tag so distinct non-stream objects stay
distinct). -/
inductive PdfObj where
  | stream (s : Stream)
  | other (k : Nat)
deriving DecidableEq, Repr

/-- The parsed document graph: objects keyed by their (opaque) object id,
in the enumeration order of `doc.objects.keys()`. -/
structure Document where
  objects : List (Nat × PdfObj)
deriving DecidableEq, Repr

/-- The per-object loop of `remove_tags_from_pdf`: rewrite every stream
object in place, skip every other object, and accumulate the counts. -/
def rewriteObjects (find : FindFn) (dec : Codec) : List (Nat × PdfObj) → List (Nat × PdfObj) × Nat
  | [] => ([], 0)
  | (i, PdfObj.stream s) :: rest =>
    let r := process_content_stream find dec s
    let q := rewriteObjects find dec rest
    ((i, PdfObj.stream r.1) :: q.1, r.2 + q.2)
  | (i, PdfObj.other k) :: rest =>
    let q := rewriteObjects find dec rest
    ((i, PdfObj.other k) :: q.1, q.2)

/-- `Regex::new(pattern.unwrap_or(DEFAULT))`: an absent pattern compiles the
default literal, which always succeeds; an explicit pattern goes through the
regex compiler `C`. -/
def compileTag (C : String → Except String FindFn) : Option String → Except String FindFn
  | none => Except.ok default_find
  | some p => C p

/-- Prefix an error message, as the `map_err(format!)` calls do. -/
def wrapErr {α : Type} (pre : String) : Except String α → Except String α
  | Except.ok a => Except.ok a
  | Except.error e => Except.error (pre ++ e)

/-- `remove_tags_from_pdf`: parse, compile the effective pattern, rewrite
every stream object, serialize.  `L` is `Document::load_mem`, `C` the regex
compiler for explicit patterns, `S` is `Document::save_to`. -/
def remove_tags_from_pdf (L : List Nat → Except String Document)
    (C : String → Except String FindFn) (S : Document → Except String (List Nat))
    (dec : Codec) (pdf_data : List Nat) (pattern : Option String) :
    Except String (List Nat × Nat) :=
  match wrapErr "Failed to load PDF: " (L pdf_data) with
  | Except.error e => Except.error e
  | Except.ok doc =>
    match wrapErr "Invalid regex pattern: " (compileTag C pattern) with
    | Except.error e => Except.error e
    | Except.ok find =>
      let r := rewriteObjects find dec doc.objects
      match wrapErr "Failed to save PDF: " (S { objects := r.1 }) with
      | Except.error e => Except.error e
      | Except.ok output => Except.ok (output, r.2)

/-! ## HTTP handler level -/

/-- The `/remove_tags` request body. -/
structure RemoveTagsRequest where
  pdf_base64 : String
  tag_pattern : Option String

/-- The success response body. -/
structure RemoveTagsResponse where
  pdf_base64 : String
  tags_removed : Nat
  success : Bool
  message : String
deriving DecidableEq, Repr

/-- The failure response body. -/
structure ErrorResponse where
  success : Bool
  message : String
deriving DecidableEq, Repr

/-- An HTTP response as the handler builds it: status code plus one of the
two body shapes. -/
inductive HttpResponse where
  | okJson (body : RemoveTagsResponse)
  | badRequestJson (body : ErrorResponse)
  | internalServerErrorJson (body : ErrorResponse)
deriving DecidableEq, Repr

/-- The `remove_tags` handler: base64-decode the payload (`b64dec`); on
failure answer 400 with `success = false` and never touch the core; then
run the core and answer 200 with the re-encoded bytes (`b64enc`) or 500
with the core's message. -/
def remove_tags (b64dec : String → Except String (List Nat)) (b64enc : List Nat → String)
    (L : List Nat → Except String Document) (C : String → Except String FindFn)
    (S : Document → Except String (List Nat)) (dec : Codec)
    (req : RemoveTagsRequest) : HttpResponse :=
  match b64dec req.pdf_base64 with
  | Except.error e =>
    HttpResponse.badRequestJson { success := false, message := "Invalid base64 data: " ++ e }
  | Except.ok pdf_data =>
    match remove_tags_from_pdf L C S dec pdf_data req.tag_pattern with
    | Except.ok r =>
      HttpResponse.okJson
        { pdf_base64 := b64enc r.1
          tags_removed := r.2
          success := true
          message := "Removed " ++ toString r.2 ++ " tags from PDF" }
    | Except.error e =>
      HttpResponse.internalServerErrorJson { success := false, message := e }

/-! ## UTF-8 lemmas -/

theorem utf8Encode_nil : utf8Encode [] = [] := rfl

theorem utf8Encode_cons (c : Char) (cs : List Char) :
    utf8Encode (c :: cs) = utf8EncodeChar c ++ utf8Encode cs := rfl

theorem utf8Encode_append (a b : List Char) :
    utf8Encode (a ++ b) = utf8Encode a ++ utf8Encode b := by
  induction a with
  | nil => rfl
  | cons c t ih =>
    simp only [List.cons_append, utf8Encode_cons, ih, List.append_assoc]

theorem utf8EncodeChar_length_pos (c : Char) : 0 < (utf8EncodeChar c).length := by
  unfold utf8EncodeChar
  split_ifs <;> simp

theorem utf8EncodeChar_sp : utf8EncodeChar sp = [32] := by decide

theorem utf8Encode_replicate_sp (k : Nat) :
    utf8Encode (List.replicate k sp) = List.replicate k 32 := by
  induction k with
  | zero => rfl
  | succ n ih =>
    simp only [List.replicate_succ, utf8Encode_cons, ih, utf8EncodeChar_sp]
    rfl

theorem utf8Len_pos {cs : List Char} (h : cs ≠ []) : 0 < utf8Len cs := by
  cases cs with
  | nil => exact absurd rfl h
  | cons c t =>
    unfold utf8Len
    rw [utf8Encode_cons, List.length_append]
    have := utf8EncodeChar_length_pos c
    omega

theorem char_toNat_valid (c : Char) :
    c.toNat < 55296 ∨ (57343 < c.toNat ∧ c.toNat < 1114112) := by
  rcases c.valid with h | ⟨h1, h2⟩
  · exact Or.inl (UInt32.toNat_lt_of_lt (by decide) h)
  · exact Or.inr ⟨UInt32.lt_toNat_of_lt (by decide) h1, UInt32.toNat_lt_of_lt (by decide) h2⟩

theorem utf8DecodeLossy_ascii {n : Nat} (h : n < 128) (bs : List Nat) :
    utf8DecodeLossy (n :: bs) = Char.ofNat n :: utf8DecodeLossy bs := by
  rw [utf8DecodeLossy.eq_def]
  dsimp only
  rw [if_pos h]

theorem utf8DecodeLossy_two {n : Nat} (h1 : 128 ≤ n) (h2 : n < 2048) (bs : List Nat) :
    utf8DecodeLossy ((192 + n / 64) :: ((128 + n % 64) :: bs))
      = Char.ofNat n :: utf8DecodeLossy bs := by
  have c1 : ¬ (192 + n / 64 < 128) := by omega
  have c2 : ¬ (192 + n / 64 < 194) := by omega
  have c3 : 192 + n / 64 < 224 := by omega
  have c4 : contByte (128 + n % 64) = true := by
    simp only [contByte, decide_eq_true_eq]
    omega
  rw [utf8DecodeLossy.eq_def]
  dsimp only
  rw [if_neg c1, if_neg c2, if_pos c3, if_pos c4,
    show (192 + n / 64 - 192) * 64 + (128 + n % 64 - 128) = n from by omega]

theorem utf8DecodeLossy_three {n : Nat} (h1 : 2048 ≤ n) (h2 : n < 65536)
    (hs : n < 55296 ∨ 57343 < n) (bs : List Nat) :
    utf8DecodeLossy ((224 + n / 4096) :: ((128 + n / 64 % 64) :: ((128 + n % 64) :: bs)))
      = Char.ofNat n :: utf8DecodeLossy bs := by
  have c1 : ¬ (224 + n / 4096 < 128) := by omega
  have c2 : ¬ (224 + n / 4096 < 194) := by omega
  have c3 : ¬ (224 + n / 4096 < 224) := by omega
  have c4 : 224 + n / 4096 < 240 := by omega
  have c5 : lo2 (224 + n / 4096) ≤ 128 + n / 64 % 64 ∧ 128 + n / 64 % 64 < hi2 (224 + n / 4096) := by
    unfold lo2 hi2
    split_ifs <;> omega
  have c6 : contByte (128 + n % 64) = true := by
    simp only [contByte, decide_eq_true_eq]
    omega
  rw [utf8DecodeLossy.eq_def]
  dsimp only
  rw [if_neg c1, if_neg c2, if_neg c3, if_pos c4, if_pos c5, if_pos c6,
    show (224 + n / 4096 - 224) * 4096 + (128 + n / 64 % 64 - 128) * 64 + (128 + n % 64 - 128) = n
      from by omega]

theorem utf8DecodeLossy_four {n : Nat} (h1 : 65536 ≤ n) (h2 : n < 1114112) (bs : List Nat) :
    utf8DecodeLossy
        ((240 + n / 262144)
          :: ((128 + n / 4096 % 64) :: ((128 + n / 64 % 64) :: ((128 + n % 64) :: bs))))
      = Char.ofNat n :: utf8DecodeLossy bs := by
  have c1 : ¬ (240 + n / 262144 < 128) := by omega
  have c2 : ¬ (240 + n / 262144 < 194) := by omega
  have c3 : ¬ (240 + n / 262144 < 224) := by omega
  have c4 : ¬ (240 + n / 262144 < 240) := by omega
  have c5 : 240 + n / 262144 < 245 := by omega
  have c6 : lo3 (240 + n / 262144) ≤ 128 + n / 4096 % 64
      ∧ 128 + n / 4096 % 64 < hi3 (240 + n / 262144) := by
    unfold lo3 hi3
    split_ifs <;> omega
  have c7 : contByte (128 + n / 64 % 64) = true := by
    simp only [contByte, decide_eq_true_eq]
    omega
  have c8 : contByte (128 + n % 64) = true := by
    simp only [contByte, decide_eq_true_eq]
    omega
  rw [utf8DecodeLossy.eq_def]
  dsimp only
  rw [if_neg c1, if_neg c2, if_neg c3, if_neg c4, if_pos c5, if_pos c6, if_pos c7, if_pos c8,
    show (240 + n / 262144 - 240) * 262144 + (128 + n / 4096 % 64 - 128) * 4096
        + (128 + n / 64 % 64 - 128) * 64 + (128 + n % 64 - 128) = n
      from by omega]

theorem utf8DecodeLossy_encodeChar (c : Char) (bs : List Nat) :
    utf8DecodeLossy (utf8EncodeChar c ++ bs) = c :: utf8DecodeLossy bs := by
  have hv := char_toNat_valid c
  by_cases h1 : c.toNat < 128
  · rw [show utf8EncodeChar c = [c.toNat] from by unfold utf8EncodeChar; rw [if_pos h1]]
    rw [List.cons_append, List.nil_append, utf8DecodeLossy_ascii h1, Char.ofNat_toNat]
  · by_cases h2 : c.toNat < 2048
    · rw [show utf8EncodeChar c = [192 + c.toNat / 64, 128 + c.toNat % 64] from by
        unfold utf8EncodeChar; rw [if_neg h1, if_pos h2]]
      rw [List.cons_append, List.cons_append, List.nil_append,
        utf8DecodeLossy_two (by omega) h2, Char.ofNat_toNat]
    · by_cases h3 : c.toNat < 65536
      · rw [show utf8EncodeChar c
            = [224 + c.toNat / 4096, 128 + c.toNat / 64 % 64, 128 + c.toNat % 64] from by
          unfold utf8EncodeChar; rw [if_neg h1, if_neg h2, if_pos h3]]
        rw [List.cons_append, List.cons_append, List.cons_append, List.nil_append,
          utf8DecodeLossy_three (by omega) h3 (by omega), Char.ofNat_toNat]
      · rw [show utf8EncodeChar c
            = [240 + c.toNat / 262144, 128 + c.toNat / 4096 % 64,
               128 + c.toNat / 64 % 64, 128 + c.toNat % 64] from by
          unfold utf8EncodeChar; rw [if_neg h1, if_neg h2, if_neg h3]]
        rw [List.cons_append, List.cons_append, List.cons_append, List.cons_append,
          List.nil_append, utf8DecodeLossy_four (by omega) (by omega), Char.ofNat_toNat]

theorem utf8DecodeLossy_encode (cs : List Char) : utf8DecodeLossy (utf8Encode cs) = cs := by
  induction cs with
  | nil => rfl
  | cons c t ih => rw [utf8Encode_cons, utf8DecodeLossy_encodeChar, ih]

theorem validUtf8_encode (cs : List Char) : ValidUtf8 (utf8Encode cs) := by
  unfold ValidUtf8
  rw [utf8DecodeLossy_encode]

/-! ## Dictionary lemmas -/

theorem dget_dset_self (d : Dict) (k : String) (v : PObj) : dget (dset d k v) k = some v := by
  induction d with
  | nil => simp [dset, dget]
  | cons kv rest ih =>
    obtain ⟨k1, w⟩ := kv
    by_cases h : k1 = k
    · simp [dset, dget, h]
    · rw [show dset ((k1, w) :: rest) k v = (k1, w) :: dset rest k v from by
          simp [dset, h],
        show dget ((k1, w) :: dset rest k v) k = dget (dset rest k v) k from by
          simp [dget, h]]
      exact ih

theorem dget_dset_ne (d : Dict) {k k' : String} (v : PObj) (h : k ≠ k') :
    dget (dset d k v) k' = dget d k' := by
  induction d with
  | nil => simp [dset, dget, h]
  | cons kv rest ih =>
    obtain ⟨k1, w⟩ := kv
    by_cases h1 : k1 = k
    · simp only [dset, if_pos h1, dget, if_neg h, h1]
    · simp only [dset, if_neg h1, dget]
      by_cases h2 : k1 = k'
      · rw [if_pos h2, if_pos h2]
      · rw [if_neg h2, if_neg h2]
        exact ih

theorem dget_dremove_self (d : Dict) (k : String) : dget (dremove d k) k = none := by
  induction d with
  | nil => rfl
  | cons kv rest ih =>
    obtain ⟨k1, w⟩ := kv
    by_cases h : k1 = k
    · simpa [dremove, h] using ih
    · simp only [dremove, List.filter] at ih ⊢
      rw [show (decide ¬(k1, w).1 = k) = true from by simp [h]]
      simpa [dget, h] using ih

theorem dget_dremove_ne (d : Dict) {k k' : String} (h : k ≠ k') :
    dget (dremove d k) k' = dget d k' := by
  induction d with
  | nil => rfl
  | cons kv rest ih =>
    obtain ⟨k1, w⟩ := kv
    by_cases h1 : k1 = k
    · rw [show dremove ((k1, w) :: rest) k = dremove rest k from by simp [dremove, h1], ih,
        show dget ((k1, w) :: rest) k' = dget rest k' from by
          rw [show dget ((k1, w) :: rest) k' = if k1 = k' then some w else dget rest k'
              from rfl,
            if_neg (by rw [h1]; exact h)]]
    · rw [show dremove ((k1, w) :: rest) k = (k1, w) :: dremove rest k from by
          simp [dremove, h1]]
      by_cases h2 : k1 = k'
      · simp [dget, h2]
      · simp only [dget, if_neg h2]
        exact ih

/-! ## Decompression lemmas -/

theorem decompress_no_filter {s : Stream} (dec : Codec) (h : dget s.dict "Filter" = none) :
    decompress dec s = s := by
  unfold decompress
  rw [h]

theorem decompress_dec_none {dec : Codec} {s : Stream} (h : dec s.content = none) :
    decompress dec s = s := by
  unfold decompress
  cases dget s.dict "Filter" with
  | none => rfl
  | some v => rw [h]

/-! ## Shape of the default pattern's matches -/

theorem takeWhile_all_append {p : Char → Bool} {w : List Char} (x : Char) (t : List Char)
    (hw : ∀ c ∈ w, p c = true) (hx : p x = false) :
    (w ++ x :: t).takeWhile p = w ∧ (w ++ x :: t).dropWhile p = x :: t := by
  induction w with
  | nil =>
    simp only [List.nil_append, List.takeWhile_cons, List.dropWhile_cons, hx]
    exact ⟨rfl, rfl⟩
  | cons c w' ih =>
    have hc : p c = true := hw c (List.mem_cons_self c w')
    have ih' := ih (fun c hm => hw c (List.mem_cons_of_mem _ hm))
    simp only [List.cons_append, List.takeWhile_cons, List.dropWhile_cons, hc, if_pos]
    exact ⟨by rw [ih'.1], ih'.2⟩

theorem lb_ne_rb : lb ≠ rb := by decide

theorem sp_ne_rb : sp ≠ rb := by decide

theorem sp_ne_lb : sp ≠ lb := by decide

theorem matchAt_eq_some {cs : List Char} {n : Nat} (h : matchAt cs = some n) :
    ∃ w t, cs = lb :: lb :: (w ++ rb :: rb :: t) ∧ w ≠ [] ∧ (∀ c ∈ w, c ≠ rb)
      ∧ n = w.length + 4 := by
  match cs with
  | [] => exact absurd h (by simp [matchAt])
  | [c] => exact absurd h (by simp [matchAt])
  | c0 :: c1 :: rest =>
    rw [matchAt] at h
    by_cases hbb : c0 = lb ∧ c1 = lb
    · rw [if_pos hbb] at h
      cases hd : rest.dropWhile (fun c => c != rb) with
      | nil => rw [hd] at h; exact absurd h (by simp)
      | cons d0 dtl =>
        cases dtl with
        | nil => rw [hd] at h; exact absurd h (by simp)
        | cons d1 t' =>
          rw [hd] at h
          dsimp only at h
          by_cases hcond : 1 ≤ (rest.takeWhile (fun c => c != rb)).length ∧ d0 = rb ∧ d1 = rb
          · rw [if_pos hcond] at h
            refine ⟨rest.takeWhile (fun c => c != rb), t', ?_, ?_, ?_, ?_⟩
            · rw [hbb.1, hbb.2]
              have : rest = rest.takeWhile (fun c => c != rb)
                  ++ rest.dropWhile (fun c => c != rb) :=
                (List.takeWhile_append_dropWhile _ _).symm
              rw [hd, hcond.2.1, hcond.2.2] at this
              rw [← this]
            · intro hnil
              rw [hnil] at hcond
              simp at hcond
            · intro c hc
              have := List.mem_takeWhile_imp hc
              simpa using this
            · have := Option.some.inj h
              omega
          · rw [if_neg hcond] at h
            exact absurd h (by simp)
    · rw [if_neg hbb] at h
      exact absurd h (by simp)

theorem matchAt_shape {w : List Char} (t : List Char) (hw : w ≠ [])
    (hmem : ∀ c ∈ w, c ≠ rb) :
    matchAt (lb :: lb :: (w ++ rb :: rb :: t)) = some (w.length + 4) := by
  have hall : ∀ c ∈ w, (fun c => c != rb) c = true := by
    intro c hc
    simpa using hmem c hc
  have hrb : (fun c => c != rb) rb = false := by simp
  have htw := takeWhile_all_append (p := fun c => c != rb) rb (rb :: t) hall hrb
  have hwlen : 1 ≤ ((w ++ rb :: rb :: t).takeWhile (fun c => c != rb)).length := by
    rw [htw.1]
    cases w with
    | nil => exact absurd rfl hw
    | cons a b => simp
  rw [matchAt, if_pos ⟨rfl, rfl⟩, htw.2]
  dsimp only
  rw [if_pos ⟨hwlen, rfl, rfl⟩, htw.1]

theorem matchAt_bounds {cs : List Char} {n : Nat} (h : matchAt cs = some n) :
    5 ≤ n ∧ n ≤ cs.length := by
  obtain ⟨w, t, hcs, hw, _, hn⟩ := matchAt_eq_some h
  have : w.length ≥ 1 := by
    cases w with
    | nil => exact absurd rfl hw
    | cons a b => simp
  subst hcs
  simp only [List.length_cons, List.length_append]
  omega

theorem matchAt_not_lb {c : Char} (x : List Char) (h : c ≠ lb) : matchAt (c :: x) = none := by
  match x with
  | [] => rfl
  | c1 :: rest =>
    rw [matchAt, if_neg]
    intro hc
    exact h hc.1

theorem matchAt_not_lb2 {c1 : Char} (c0 : Char) (x : List Char) (h : c1 ≠ lb) :
    matchAt (c0 :: c1 :: x) = none := by
  rw [matchAt, if_neg]
  intro hc
  exact h hc.2

theorem matchAt_nil : matchAt [] = none := rfl

theorem matchAt_single (c : Char) : matchAt [c] = none := rfl

/-! ## find_iter spans: fuel, bounds, well-formedness -/

theorem findFromF_nil (f pos : Nat) : findFromF f pos [] = [] := by
  cases f <;> rfl

theorem findFromF_fuel {f1 f2 : Nat} : ∀ {cs : List Char} (pos : Nat),
    cs.length ≤ f1 → cs.length ≤ f2 → findFromF f1 pos cs = findFromF f2 pos cs := by
  induction f1 generalizing f2 with
  | zero =>
    intro cs pos h1 h2
    have : cs = [] := List.eq_nil_of_length_eq_zero (by omega)
    subst this
    rw [findFromF_nil, findFromF_nil]
  | succ f1' ih =>
    intro cs pos h1 h2
    cases cs with
    | nil => rw [findFromF_nil, findFromF_nil]
    | cons c rest =>
      cases f2 with
      | zero => simp at h2
      | succ f2' =>
        rw [findFromF, findFromF]
        cases hm : matchAt (c :: rest) with
        | none =>
          dsimp only
          simp only [List.length_cons] at h1 h2
          exact ih (pos + 1) (by omega) (by omega)
        | some n =>
          have hb := matchAt_bounds hm
          have hlen : ((c :: rest).drop n).length ≤ f1' ∧ ((c :: rest).drop n).length ≤ f2' := by
            simp only [List.length_drop, List.length_cons] at *
            omega
          dsimp only
          rw [ih (pos + n) hlen.1 hlen.2]

theorem findFromF_start_le {f : Nat} : ∀ {pos : Nat} {cs : List Char} {s l : Nat},
    (s, l) ∈ findFromF f pos cs → pos ≤ s := by
  induction f with
  | zero => intro pos cs s l h; simp [findFromF] at h
  | succ f' ih =>
    intro pos cs s l h
    cases cs with
    | nil => rw [findFromF_nil] at h; simp at h
    | cons c rest =>
      rw [findFromF] at h
      cases hm : matchAt (c :: rest) with
      | none =>
        rw [hm] at h
        have := ih h
        omega
      | some n =>
        rw [hm] at h
        rcases List.mem_cons.mp h with heq | htl
        · have : s = pos := by
            have := Prod.mk.injEq s l pos n ▸ heq
            exact (Prod.mk.inj heq).1
          omega
        · have := ih htl
          omega

/-- Spans are well-formed from position `pos` within length `n`: each span
starts no earlier than `pos`, ends within `n`, and the next span starts no
earlier than this one's end (non-overlapping, left to right). -/
def SpansWFFrom : Nat → Nat → List (Nat × Nat) → Prop
  | _, _, [] => True
  | pos, n, (s, l) :: rest => pos ≤ s ∧ s + l ≤ n ∧ SpansWFFrom (s + l) n rest

theorem spansWFFrom_mono {p q n : Nat} {sp : List (Nat × Nat)} (h : SpansWFFrom p n sp)
    (hq : q ≤ p) : SpansWFFrom q n sp := by
  cases sp with
  | nil => trivial
  | cons hd tl =>
    obtain ⟨s, l⟩ := hd
    obtain ⟨h1, h2, h3⟩ := h
    exact ⟨by omega, h2, h3⟩

theorem findFromF_wf (f : Nat) : ∀ (pos : Nat) (cs : List Char),
    SpansWFFrom pos (pos + cs.length) (findFromF f pos cs) := by
  induction f with
  | zero =>
    intro pos cs
    rw [show findFromF 0 pos cs = [] from by cases cs <;> rfl]
    exact trivial
  | succ f' ih =>
    intro pos cs
    cases cs with
    | nil => rw [findFromF_nil]; exact trivial
    | cons c rest =>
      rw [findFromF]
      cases hm : matchAt (c :: rest) with
      | none =>
        have := ih (pos + 1) rest
        have hlen : pos + 1 + rest.length = pos + (c :: rest).length := by
          simp only [List.length_cons]
          omega
        rw [hlen] at this
        exact spansWFFrom_mono this (by omega)
      | some n =>
        have hb := matchAt_bounds hm
        refine ⟨le_refl pos, by simp only [List.length_cons] at *; omega, ?_⟩
        have := ih (pos + n) ((c :: rest).drop n)
        have hlen : pos + n + ((c :: rest).drop n).length = pos + (c :: rest).length := by
          simp only [List.length_drop, List.length_cons] at *
          omega
        rw [hlen] at this
        exact this

theorem default_find_wf (cs : List Char) : SpansWFFrom 0 cs.length (default_find cs) := by
  have := findFromF_wf cs.length 0 cs
  simpa using this

/-! ## Byte spans of the matches

A pattern's spans are character spans of the lossily decoded text.
`byteSpans` translates them into byte spans of the decoded payload's UTF-8
bytes: for each match, the byte offset where the matched text starts and
the byte length of the matched text (the `caps[0].len()` that sizes the
filler run).  `replace_spans_spec` then states the rewrite positionally:
the byte length is preserved, every byte outside the match byte-spans is
unchanged, and each match byte-span is overwritten with exactly that many
filler bytes (spaces). -/

/-- Absolute byte spans of the character spans `spans` of `cs`; `pos` is
the absolute character position of the head of `cs` and `b` the absolute
byte position of its encoding. -/
def byteSpansFrom : List Char → Nat → Nat → List (Nat × Nat) → List (Nat × Nat)
  | _, _, _, [] => []
  | cs, pos, b, (s, l) :: rest =>
    (b + utf8Len (cs.take (s - pos)), utf8Len ((cs.drop (s - pos)).take l))
      :: byteSpansFrom ((cs.drop (s - pos)).drop l) (s + l)
           (b + utf8Len (cs.take (s - pos)) + utf8Len ((cs.drop (s - pos)).take l)) rest

/-- The byte spans, in the decoded payload's bytes, of the matches `spans`
found in the text `cs`. -/
def byteSpans (cs : List Char) (spans : List (Nat × Nat)) : List (Nat × Nat) :=
  byteSpansFrom cs 0 0 spans

theorem byteSpansFrom_shift : ∀ (spans : List (Nat × Nat)) (cs : List Char) (pos b : Nat),
    byteSpansFrom cs pos b spans
      = (byteSpansFrom cs pos 0 spans).map (fun q => (b + q.1, q.2)) := by
  intro spans
  induction spans with
  | nil => intro cs pos b; rfl
  | cons hd tl ih =>
    obtain ⟨s, l⟩ := hd
    intro cs pos b
    rw [byteSpansFrom, byteSpansFrom, List.map_cons]
    simp only [Nat.zero_add]
    rw [ih ((cs.drop (s - pos)).drop l) (s + l)
        (b + utf8Len (cs.take (s - pos)) + utf8Len ((cs.drop (s - pos)).take l)),
      ih ((cs.drop (s - pos)).drop l) (s + l)
        (utf8Len (cs.take (s - pos)) + utf8Len ((cs.drop (s - pos)).take l)),
      List.map_map]
    simp only [List.cons.injEq]
    refine ⟨by trivial, ?_⟩
    congr 1
    funext q
    simp only [Function.comp_apply]
    refine congrArg₂ Prod.mk ?_ rfl
    omega

/-- An index lies outside every span of the list. -/
def OutsideSpans (bspans : List (Nat × Nat)) (i : Nat) : Prop :=
  ∀ q ∈ bspans, i < q.1 ∨ q.1 + q.2 ≤ i

instance (bspans : List (Nat × Nat)) (i : Nat) : Decidable (OutsideSpans bspans i) := by
  unfold OutsideSpans
  infer_instance

/-- Positional specification of the replacement: for well-formed spans, the
encoded replaced text (1) keeps the byte length of the encoded original,
(2) agrees with the encoded original at every byte index outside the
matches' byte spans, and (3) holds the filler byte 32 at each of the
`q.2` byte positions of each match's byte span `q` — so the replacement
written for a match has exactly the matched text's byte length. -/
theorem replace_spans_spec : ∀ (spans : List (Nat × Nat)) (cs : List Char) (pos : Nat),
    SpansWFFrom pos (pos + cs.length) spans →
    (utf8Encode (replaceSpansFrom cs pos spans)).length = (utf8Encode cs).length
    ∧ (∀ i : Nat, OutsideSpans (byteSpansFrom cs pos 0 spans) i →
        (utf8Encode (replaceSpansFrom cs pos spans))[i]? = (utf8Encode cs)[i]?)
    ∧ (∀ q ∈ byteSpansFrom cs pos 0 spans, ∀ j, j < q.2 →
        (utf8Encode (replaceSpansFrom cs pos spans))[q.1 + j]? = some 32) := by
  intro spans
  induction spans with
  | nil =>
    intro cs pos _
    exact ⟨rfl, fun i _ => rfl, fun q hq => absurd hq (by intro h; cases h)⟩
  | cons hd tl ih =>
    obtain ⟨s, l⟩ := hd
    intro cs pos hwf
    obtain ⟨h1, h2, h3⟩ := hwf
    have hlenP : s + l + ((cs.drop (s - pos)).drop l).length = pos + cs.length := by
      simp only [List.length_drop]
      omega
    obtain ⟨iha, ihb, ihc⟩ := ih ((cs.drop (s - pos)).drop l) (s + l) (hlenP ▸ h3)
    have hsplit : cs = cs.take (s - pos) ++ ((cs.drop (s - pos)).take l
        ++ (cs.drop (s - pos)).drop l) := by
      rw [List.take_append_drop, List.take_append_drop]
    have hI : utf8Encode cs
        = utf8Encode (cs.take (s - pos))
          ++ (utf8Encode ((cs.drop (s - pos)).take l)
            ++ utf8Encode ((cs.drop (s - pos)).drop l)) := by
      conv_lhs => rw [hsplit]
      rw [utf8Encode_append, utf8Encode_append]
    have hE : utf8Encode (replaceSpansFrom cs pos ((s, l) :: tl))
        = utf8Encode (cs.take (s - pos))
          ++ (List.replicate (utf8Len ((cs.drop (s - pos)).take l)) 32
            ++ utf8Encode (replaceSpansFrom ((cs.drop (s - pos)).drop l) (s + l) tl)) := by
      rw [replaceSpansFrom, utf8Encode_append, utf8Encode_append, utf8Encode_replicate_sp,
        List.append_assoc]
    have hB : byteSpansFrom cs pos 0 ((s, l) :: tl)
        = (utf8Len (cs.take (s - pos)), utf8Len ((cs.drop (s - pos)).take l))
          :: (byteSpansFrom ((cs.drop (s - pos)).drop l) (s + l) 0 tl).map
              (fun q => (utf8Len (cs.take (s - pos))
                + utf8Len ((cs.drop (s - pos)).take l) + q.1, q.2)) := by
      rw [byteSpansFrom, byteSpansFrom_shift]
      simp only [Nat.zero_add]
    have hAlen : (utf8Encode (cs.take (s - pos))).length = utf8Len (cs.take (s - pos)) := rfl
    have hMlen : (utf8Encode ((cs.drop (s - pos)).take l)).length
        = utf8Len ((cs.drop (s - pos)).take l) := rfl
    refine ⟨?_, ?_, ?_⟩
    · rw [hE, hI]
      simp only [List.length_append, List.length_replicate, hAlen, hMlen, iha]
    · intro i hout
      rw [hB] at hout
      have hhead := hout _ (List.mem_cons_self _ _)
      dsimp only at hhead
      rcases hhead with hlt | hge
      · rw [hE, hI, List.getElem?_append_left (by rw [hAlen]; exact hlt),
          List.getElem?_append_left (by rw [hAlen]; exact hlt)]
      · rw [hE, hI,
          List.getElem?_append_right (by rw [hAlen]; omega),
          List.getElem?_append_right (by rw [List.length_replicate, hAlen]; omega),
          List.getElem?_append_right (by rw [hAlen]; omega),
          List.getElem?_append_right (by rw [hMlen, hAlen]; omega),
          List.length_replicate, hAlen, hMlen]
        apply ihb
        intro q' hq'
        have hq := hout _ (List.mem_cons_of_mem _ (List.mem_map_of_mem _ hq'))
        dsimp only at hq
        rcases hq with h | h
        · left; omega
        · right; omega
    · intro q hq j hj
      rw [hB] at hq
      rcases List.mem_cons.mp hq with hqh | hqt
      · subst hqh
        dsimp only at hj
        rw [hE,
          List.getElem?_append_right (by rw [hAlen]; omega),
          List.getElem?_append_left (by
            rw [List.length_replicate, hAlen]
            omega)]
        rw [hAlen, show utf8Len (cs.take (s - pos)) + j - utf8Len (cs.take (s - pos)) = j
          from by omega]
        exact List.getElem?_replicate_of_lt hj
      · obtain ⟨q', hq', hqeq⟩ := List.mem_map.mp hqt
        subst hqeq
        dsimp only at hj ⊢
        rw [hE,
          List.getElem?_append_right (by rw [hAlen]; omega),
          List.getElem?_append_right (by rw [List.length_replicate, hAlen]; omega),
          List.length_replicate, hAlen,
          show utf8Len (cs.take (s - pos)) + utf8Len ((cs.drop (s - pos)).take l) + q'.1 + j
              - utf8Len (cs.take (s - pos)) - utf8Len ((cs.drop (s - pos)).take l)
            = q'.1 + j from by omega]
        exact ihc q' hq' j hj

/-! ## Unfolding `process_content_stream` -/

theorem process_count (find : FindFn) (dec : Codec) (s : Stream) :
    (process_content_stream find dec s).2
      = (find (utf8DecodeLossy (decompress dec s).content)).length := by
  simp only [process_content_stream]
  by_cases h : 0 < (find (utf8DecodeLossy (decompress dec s).content)).length
  · rw [if_pos h]
  · rw [if_neg h]
    omega

theorem process_of_zero (find : FindFn) (dec : Codec) (s : Stream)
    (h : find (utf8DecodeLossy (decompress dec s).content) = []) :
    process_content_stream find dec s = (decompress dec s, 0) := by
  simp only [process_content_stream, h]
  rw [if_neg (by simp)]

theorem process_of_pos (find : FindFn) (dec : Codec) (s : Stream)
    (h : 0 < (find (utf8DecodeLossy (decompress dec s).content)).length) :
    process_content_stream find dec s =
      ({ dict := dset (dremove (dremove (decompress dec s).dict "Filter") "DecodeParms")
             "Length"
             (PObj.integer (Int.ofNat (utf8Encode (replaceSpansFrom
               (utf8DecodeLossy (decompress dec s).content) 0
               (find (utf8DecodeLossy (decompress dec s).content)))).length))
         content := utf8Encode (replaceSpansFrom
           (utf8DecodeLossy (decompress dec s).content) 0
           (find (utf8DecodeLossy (decompress dec s).content))) },
       (find (utf8DecodeLossy (decompress dec s).content)).length) := by
  simp only [process_content_stream]
  rw [if_pos h]

/-! ## The default-pattern scan and its equations

`scanG pos cs` is exactly what `process_content_stream` computes for the
default pattern: replace every `find_iter` span of `cs` by spaces.  The
three equations below recover the natural left-to-right recursion. -/

/-- The composed default-pattern replacement starting at absolute position
`pos`; the committed text of the default rewrite is `scanG 0 cs`. -/
def scanG (pos : Nat) (cs : List Char) : List Char :=
  replaceSpansFrom cs pos (findFromF cs.length pos cs)

theorem scanG_nil (pos : Nat) : scanG pos [] = [] := rfl

theorem replaceSpansFrom_cons_ge {spans : List (Nat × Nat)} {pos : Nat} (c : Char)
    (rest : List Char) (h : ∀ s l, (s, l) ∈ spans → pos + 1 ≤ s) :
    replaceSpansFrom (c :: rest) pos spans = c :: replaceSpansFrom rest (pos + 1) spans := by
  cases spans with
  | nil => rfl
  | cons hd tl =>
    obtain ⟨s, l⟩ := hd
    have hs : pos + 1 ≤ s := h s l (List.mem_cons_self _ _)
    rw [replaceSpansFrom, replaceSpansFrom,
      show s - pos = (s - (pos + 1)) + 1 from by omega,
      List.take_succ_cons, List.drop_succ_cons]
    simp [List.cons_append]

theorem scanG_match {cs : List Char} {n : Nat} (pos : Nat) (hm : matchAt cs = some n) :
    scanG pos cs = List.replicate (utf8Len (cs.take n)) sp ++ scanG (pos + n) (cs.drop n) := by
  cases cs with
  | nil => rw [matchAt_nil] at hm; cases hm
  | cons c rest =>
    have hb := matchAt_bounds hm
    unfold scanG
    rw [show (c :: rest).length = rest.length + 1 from rfl, findFromF, hm]
    dsimp only
    rw [replaceSpansFrom, Nat.sub_self, List.take_zero, List.drop_zero, List.nil_append]
    rw [@findFromF_fuel rest.length (((c :: rest).drop n).length) ((c :: rest).drop n) (pos + n)
      (by simp only [List.length_drop, List.length_cons] at *; omega) (le_refl _)]

theorem scanG_step {c : Char} {rest : List Char} (pos : Nat)
    (hm : matchAt (c :: rest) = none) :
    scanG pos (c :: rest) = c :: scanG (pos + 1) rest := by
  unfold scanG
  rw [show (c :: rest).length = rest.length + 1 from rfl, findFromF, hm]
  dsimp only
  exact replaceSpansFrom_cons_ge c rest (fun s l h => findFromF_start_le h)

theorem scanG_match_blank_pos {cs : List Char} {n : Nat} (hm : matchAt cs = some n) :
    0 < utf8Len (cs.take n) := by
  have hb := matchAt_bounds hm
  apply utf8Len_pos
  rw [Ne, List.take_eq_nil_iff]
  rintro (h | h)
  · omega
  · subst h
    simp at hb
    omega

/-! ## A rewritten text has no match left -/

/-- The first closing brace of `v` is immediately followed by a second
closing brace. -/
def DRun (v : List Char) : Prop :=
  (v.dropWhile (fun c => c != rb)).take 2 = [rb, rb]

theorem dropWhile_replicate_sp (m : Nat) (x : List Char) :
    (List.replicate m sp ++ x).dropWhile (fun c => c != rb) =
      x.dropWhile (fun c => c != rb) := by
  induction m with
  | zero => rfl
  | succ k ih =>
    rw [List.replicate_succ, List.cons_append, List.dropWhile_cons, if_pos (by decide)]
    exact ih

theorem dropWhile_not_rb_cons {c : Char} (x : List Char) (h : c ≠ rb) :
    (c :: x).dropWhile (fun c => c != rb) = x.dropWhile (fun c => c != rb) := by
  rw [List.dropWhile_cons, if_pos (by simpa using h)]

theorem dropWhile_rb_cons (x : List Char) :
    (rb :: x).dropWhile (fun c => c != rb) = rb :: x := by
  rw [List.dropWhile_cons, if_neg (by simp)]

theorem matchAt_some_dropWhile {v : List Char} {n : Nat} (hm : matchAt v = some n) :
    ∃ t, v.dropWhile (fun c => c != rb) = rb :: rb :: t := by
  obtain ⟨w, t, hv, hw, hmem, _⟩ := matchAt_eq_some hm
  refine ⟨t, ?_⟩
  have hall : ∀ c ∈ lb :: lb :: w, (fun c => c != rb) c = true := by
    intro c hc
    rcases List.mem_cons.mp hc with h | hc
    · subst h; simpa using lb_ne_rb
    rcases List.mem_cons.mp hc with h | hc
    · subst h; simpa using lb_ne_rb
    · simpa using hmem c hc
  have := (takeWhile_all_append (p := fun c => c != rb) rb (rb :: t) hall (by simp)).2
  rw [hv]
  rw [show lb :: lb :: (w ++ rb :: rb :: t) = (lb :: lb :: w) ++ rb :: rb :: t from rfl]
  exact this

/-- A `DRun` in the scanned text forces a `DRun` in the original: the scan
only ever turns characters into spaces, and a space is not a closing
brace. -/
theorem drun_scan : ∀ (N : Nat) (v : List Char), v.length ≤ N →
    ∀ pos, DRun (scanG pos v) → DRun v := by
  intro N
  induction N with
  | zero =>
    intro v hv pos h
    have : v = [] := List.eq_nil_of_length_eq_zero (by omega)
    subst this
    rw [scanG_nil] at h
    simp [DRun] at h
  | succ N' ih =>
    intro v hv pos h
    cases hm : matchAt v with
    | some n =>
      obtain ⟨t, ht⟩ := matchAt_some_dropWhile hm
      unfold DRun
      rw [ht]
      rfl
    | none =>
      cases v with
      | nil =>
        rw [scanG_nil] at h
        simp [DRun] at h
      | cons c rest =>
        rw [scanG_step pos hm] at h
        by_cases hc : c = rb
        · subst hc
          unfold DRun at h ⊢
          rw [dropWhile_rb_cons] at h ⊢
          have hres : ∃ xs, scanG (pos + 1) rest = rb :: xs := by
            cases hsr : scanG (pos + 1) rest with
            | nil => rw [hsr] at h; simp at h
            | cons x xs =>
              rw [hsr] at h
              have hx : x = rb := by simpa using h
              exact ⟨xs, by rw [hx]⟩
          obtain ⟨xs, hxs⟩ := hres
          cases hrm : matchAt rest with
          | some k =>
            rw [scanG_match (pos + 1) hrm] at hxs
            have hpos := scanG_match_blank_pos hrm
            rw [show List.replicate (utf8Len (rest.take k)) sp
                = sp :: List.replicate (utf8Len (rest.take k) - 1) sp from by
                cases hu : utf8Len (rest.take k) with
                | zero => omega
                | succ j => rw [List.replicate_succ]; simp] at hxs
            rw [List.cons_append] at hxs
            exact absurd (List.cons.inj hxs.symm).1 (by decide)
          | none =>
            cases rest with
            | nil => rw [scanG_nil] at hxs; cases hxs
            | cons r0 rt =>
              rw [scanG_step (pos + 1) hrm] at hxs
              have : r0 = rb := (List.cons.inj hxs).1
              subst this
              rfl
        · unfold DRun at h ⊢
          rw [dropWhile_not_rb_cons _ hc] at h ⊢
          exact ih rest (by simp only [List.length_cons] at hv; omega) (pos + 1) h

/-- If the default pattern has no match at a double opening brace, it still
has none after the tail is scanned. -/
theorem matchAt_scan_none {u : List Char} (pos : Nat)
    (h : matchAt (lb :: lb :: u) = none) :
    matchAt (lb :: lb :: scanG pos u) = none := by
  cases hms : matchAt (lb :: lb :: scanG pos u) with
  | none => rfl
  | some n =>
    exfalso
    obtain ⟨w, t, hshape, hw, hmem, _⟩ := matchAt_eq_some hms
    have hscan : scanG pos u = w ++ rb :: rb :: t := by
      have := hshape
      simp only [List.cons.injEq] at this
      exact this.2.2
    have hdru : DRun u := by
      apply drun_scan u.length u (le_refl _) pos
      unfold DRun
      rw [hscan]
      have hall : ∀ c ∈ w, (fun c => c != rb) c = true := by
        intro c hc
        simpa using hmem c hc
      rw [(takeWhile_all_append (p := fun c => c != rb) rb (rb :: t) hall (by simp)).2]
      rfl
    cases hum : matchAt u with
    | some k =>
      obtain ⟨w2, t2, hu2, hw2, hmem2, _⟩ := matchAt_eq_some hum
      have hsome : matchAt (lb :: lb :: u) = some ((lb :: lb :: w2).length + 4) := by
        rw [hu2]
        exact matchAt_shape (w := lb :: lb :: w2) t2 (by simp) (by
          intro c hc
          rcases List.mem_cons.mp hc with hq | hc
          · subst hq; exact lb_ne_rb
          rcases List.mem_cons.mp hc with hq | hc
          · subst hq; exact lb_ne_rb
          · exact hmem2 c hc)
      rw [hsome] at h
      cases h
    | none =>
      cases u with
      | nil =>
        rw [scanG_nil] at hscan
        cases w with
        | nil => cases hscan
        | cons a b => cases hscan
      | cons u0 ut =>
        rw [scanG_step pos hum] at hscan
        have hu0rb : u0 ≠ rb := by
          cases w with
          | nil => exact absurd rfl hw
          | cons w0 w' =>
            rw [List.cons_append] at hscan
            rw [(List.cons.inj hscan).1]
            exact hmem w0 (List.mem_cons_self _ _)
        obtain ⟨t2, ht2⟩ : ∃ t2, (u0 :: ut).dropWhile (fun c => c != rb) = rb :: rb :: t2 := by
          unfold DRun at hdru
          cases hq : (u0 :: ut).dropWhile (fun c => c != rb) with
          | nil => rw [hq] at hdru; simp at hdru
          | cons x xs =>
            rw [hq] at hdru
            cases xs with
            | nil => simp at hdru
            | cons y ys =>
              have hxy : x = rb ∧ y = rb := by simpa using hdru
              exact ⟨ys, by rw [hxy.1, hxy.2]⟩
        have htkw : 1 ≤ ((u0 :: ut).takeWhile (fun c => c != rb)).length := by
          rw [List.takeWhile_cons, if_pos (by simpa using hu0rb)]
          simp
        have hcontra : matchAt (lb :: lb :: (u0 :: ut)) ≠ none := by
          rw [matchAt, if_pos ⟨rfl, rfl⟩, ht2]
          dsimp only
          rw [if_pos ⟨htkw, rfl, rfl⟩]
          simp
        exact hcontra h

/-- The scanned text contains no match of the default pattern at any
position: a second scan is a no-op. -/
theorem scan_noTag : ∀ (N : Nat) (v : List Char), v.length ≤ N →
    ∀ pos i, matchAt ((scanG pos v).drop i) = none := by
  intro N
  induction N with
  | zero =>
    intro v hv pos i
    have : v = [] := List.eq_nil_of_length_eq_zero (by omega)
    subst this
    rw [scanG_nil, List.drop_nil, matchAt_nil]
  | succ N' ih =>
    intro v hv pos i
    cases hm : matchAt v with
    | some n =>
      have hb := matchAt_bounds hm
      have hvne : v ≠ [] := by
        intro hq
        subst hq
        simp at hb
        omega
      rw [scanG_match pos hm]
      have hmlen := scanG_match_blank_pos hm
      by_cases hi : i < utf8Len (v.take n)
      · rw [List.drop_append_of_le_length (by simpa using by omega), List.drop_replicate]
        rw [show utf8Len (v.take n) - i = (utf8Len (v.take n) - i - 1) + 1 from by omega,
          List.replicate_succ, List.cons_append]
        exact matchAt_not_lb _ sp_ne_lb
      · rw [show i = (List.replicate (utf8Len (v.take n)) sp).length
            + (i - utf8Len (v.take n)) from by simp; omega,
          List.drop_append]
        exact ih (v.drop n) (by
          simp only [List.length_drop]
          cases v with
          | nil => exact absurd rfl hvne
          | cons a b => simp only [List.length_cons] at hv ⊢; omega) (pos + n) _
    | none =>
      cases v with
      | nil => rw [scanG_nil, List.drop_nil, matchAt_nil]
      | cons c rest =>
        rw [scanG_step pos hm]
        cases i with
        | succ j =>
          rw [List.drop_succ_cons]
          exact ih rest (by simp only [List.length_cons] at hv; omega) (pos + 1) j
        | zero =>
          rw [List.drop_zero]
          by_cases hc : c = lb
          · subst hc
            cases hrm : matchAt rest with
            | some k =>
              rw [scanG_match (pos + 1) hrm]
              have hpos := scanG_match_blank_pos hrm
              rw [show List.replicate (utf8Len (rest.take k)) sp
                  = sp :: List.replicate (utf8Len (rest.take k) - 1) sp from by
                  cases hu : utf8Len (rest.take k) with
                  | zero => omega
                  | succ j => rw [List.replicate_succ]; simp,
                List.cons_append]
              exact matchAt_not_lb2 _ _ sp_ne_lb
            | none =>
              cases rest with
              | nil => rw [scanG_nil]; exact matchAt_single lb
              | cons r0 rt =>
                rw [scanG_step (pos + 1) hrm]
                by_cases hr0 : r0 = lb
                · subst hr0
                  exact matchAt_scan_none (pos + 2) hm
                · exact matchAt_not_lb2 _ _ hr0
          · exact matchAt_not_lb _ hc

/-- A text without a match anywhere yields an empty span list. -/
theorem findFromF_of_noTag {f : Nat} : ∀ {pos : Nat} {u : List Char},
    (∀ i, matchAt (u.drop i) = none) → findFromF f pos u = [] := by
  induction f with
  | zero => intro pos u _; cases u <;> rfl
  | succ f' ih =>
    intro pos u h
    cases u with
    | nil => rw [findFromF_nil]
    | cons c rest =>
      have h0 := h 0
      rw [List.drop_zero] at h0
      rw [findFromF, h0]
      dsimp only
      exact ih (fun i => by have := h (i + 1); rwa [List.drop_succ_cons] at this)

theorem default_find_scan_nil (cs : List Char) : default_find (scanG 0 cs) = [] :=
  findFromF_of_noTag (scan_noTag cs.length cs (le_refl _) 0)

/-! ## Document-level lemmas -/

/-- The match count contributed by one object: the stream rewriter's count
for a stream object, zero for anything else. -/
def objCount (find : FindFn) (dec : Codec) : Nat × PdfObj → Nat
  | (_, PdfObj.stream s) => (process_content_stream find dec s).2
  | (_, PdfObj.other _) => 0

theorem rewriteObjects_count (find : FindFn) (dec : Codec) :
    ∀ objs : List (Nat × PdfObj),
      (rewriteObjects find dec objs).2 = (objs.map (objCount find dec)).sum := by
  intro objs
  induction objs with
  | nil => rfl
  | cons hd tl ih =>
    obtain ⟨i, o⟩ := hd
    cases o with
    | stream s =>
      simp only [rewriteObjects, List.map_cons, List.sum_cons, objCount]
      rw [ih]
    | other k =>
      simp only [rewriteObjects, List.map_cons, List.sum_cons, objCount]
      rw [ih]
      omega

theorem remove_tags_from_pdf_load_err
    (L : List Nat → Except String Document) (C : String → Except String FindFn)
    (S : Document → Except String (List Nat)) (dec : Codec) (pdf : List Nat)
    (pat : Option String) {e : String} (h : L pdf = Except.error e) :
    remove_tags_from_pdf L C S dec pdf pat
      = Except.error ("Failed to load PDF: " ++ e) := by
  simp only [remove_tags_from_pdf, wrapErr, h]

theorem remove_tags_from_pdf_pattern_err
    (L : List Nat → Except String Document) (C : String → Except String FindFn)
    (S : Document → Except String (List Nat)) (dec : Codec) (pdf : List Nat)
    (pat : Option String) {doc : Document} {e : String}
    (hL : L pdf = Except.ok doc) (hC : compileTag C pat = Except.error e) :
    remove_tags_from_pdf L C S dec pdf pat
      = Except.error ("Invalid regex pattern: " ++ e) := by
  simp only [remove_tags_from_pdf, wrapErr, hL, hC]

theorem remove_tags_from_pdf_save_err
    (L : List Nat → Except String Document) (C : String → Except String FindFn)
    (S : Document → Except String (List Nat)) (dec : Codec) (pdf : List Nat)
    (pat : Option String) {doc : Document} {find : FindFn} {e : String}
    (hL : L pdf = Except.ok doc) (hC : compileTag C pat = Except.ok find)
    (hS : S { objects := (rewriteObjects find dec doc.objects).1 } = Except.error e) :
    remove_tags_from_pdf L C S dec pdf pat
      = Except.error ("Failed to save PDF: " ++ e) := by
  simp only [remove_tags_from_pdf, wrapErr, hL, hC, hS]

theorem remove_tags_from_pdf_ok
    (L : List Nat → Except String Document) (C : String → Except String FindFn)
    (S : Document → Except String (List Nat)) (dec : Codec) (pdf : List Nat)
    (pat : Option String) {doc : Document} {find : FindFn} {out : List Nat}
    (hL : L pdf = Except.ok doc) (hC : compileTag C pat = Except.ok find)
    (hS : S { objects := (rewriteObjects find dec doc.objects).1 } = Except.ok out) :
    remove_tags_from_pdf L C S dec pdf pat
      = Except.ok (out, (rewriteObjects find dec doc.objects).2) := by
  simp only [remove_tags_from_pdf, wrapErr, hL, hC, hS]

/-! ## Claim theorems -/

/-- **C1, counterexample.**  The claim as stated — the replacement of each
match has the matched text's byte length AND rewriting changes no byte of
the decoded payload outside the matched spans — fails.  The stream below
(no filter, so the decoded payload is the stored payload) lossily decodes
to a six-character text whose single default-pattern match spans its last
five bytes, and every replacement is a same-byte-length space run, so the
claim forces the rewritten payload to keep both its length and its leading
byte; but the leading byte 255, which lies outside the matched span, is
re-encoded as the three replacement-character bytes 239,191,189, and the
payload grows from 6 to 8 bytes. -/
theorem c1_counterexample :
    (process_content_stream default_find (fun _ => none)
        { dict := [("Length", PObj.integer 6)], content := [255, 123, 123, 97, 125, 125] }).2 = 1
    ∧ (process_content_stream default_find (fun _ => none)
        { dict := [("Length", PObj.integer 6)], content := [255, 123, 123, 97, 125, 125] }).1.content
      = [239, 191, 189, 32, 32, 32, 32, 32]
    ∧ ((process_content_stream default_find (fun _ => none)
        { dict := [("Length", PObj.integer 6)], content := [255, 123, 123, 97, 125, 125] }).1.content).length
      ≠ ([255, 123, 123, 97, 125, 125] : List Nat).length := by
  refine ⟨by decide, by decide, by decide⟩

/-- **C1 (amended).**  For every pattern whose span lists are well formed
(what `find_iter` guarantees), every codec, and every stream whose decoded
(post-decompress) payload is valid UTF-8, the rewrite is positionally exact
with respect to the pattern's matches, whose byte spans inside the decoded
payload are `byteSpans`: (1) the committed payload keeps the decoded
payload's byte length; (2) at every byte index outside all matched byte
spans the committed payload agrees byte-for-byte with the decoded payload —
rewriting changes no byte outside the matched spans; (3) each matched byte
span `q` is overwritten with the filler byte 32 at exactly its `q.2`
positions — the replacement written for each match has exactly the byte
length of the matched text. -/
theorem c1_length_and_frame (find : FindFn) (dec : Codec) (s : Stream)
    (hwf : ∀ cs : List Char, SpansWFFrom 0 cs.length (find cs))
    (hvalid : ValidUtf8 (decompress dec s).content) :
    (process_content_stream find dec s).1.content.length
        = (decompress dec s).content.length
    ∧ (∀ i : Nat,
        OutsideSpans (byteSpans (utf8DecodeLossy (decompress dec s).content)
          (find (utf8DecodeLossy (decompress dec s).content))) i →
        (process_content_stream find dec s).1.content[i]?
          = (decompress dec s).content[i]?)
    ∧ (∀ q ∈ byteSpans (utf8DecodeLossy (decompress dec s).content)
          (find (utf8DecodeLossy (decompress dec s).content)),
        ∀ j, j < q.2 →
        (process_content_stream find dec s).1.content[q.1 + j]? = some 32) := by
  have hwf0 : SpansWFFrom 0 (0 + (utf8DecodeLossy (decompress dec s).content).length)
      (find (utf8DecodeLossy (decompress dec s).content)) := by
    have := hwf (utf8DecodeLossy (decompress dec s).content)
    simpa using this
  obtain ⟨ha, hb, hc⟩ := replace_spans_spec
    (find (utf8DecodeLossy (decompress dec s).content))
    (utf8DecodeLossy (decompress dec s).content) 0 hwf0
  rw [hvalid] at ha hb
  unfold byteSpans
  by_cases h : 0 < (find (utf8DecodeLossy (decompress dec s).content)).length
  · rw [process_of_pos find dec s h]
    dsimp only
    exact ⟨ha, hb, hc⟩
  · have hfnil : find (utf8DecodeLossy (decompress dec s).content) = [] :=
      List.eq_nil_of_length_eq_zero (by omega)
    rw [process_of_zero find dec s hfnil]
    refine ⟨rfl, fun i _ => rfl, ?_⟩
    intro q hq
    rw [hfnil] at hq
    exact absurd hq (List.not_mem_nil q)

/-- **C1, witness.**  The amended theorem applied to a concrete
uncompressed stream holding "Hi " followed by one five-byte tag: the single
match's byte span is `(3, 5)`; the payload length is preserved, the byte at
index 0 (outside the span) is unchanged, and the byte at index 3 + 1
(inside the span) is the filler 32. -/
theorem c1_witness :
    ((process_content_stream default_find (fun _ => none)
        { dict := [], content := [72, 105, 32, 123, 123, 97, 125, 125] }).1.content).length
      = ([72, 105, 32, 123, 123, 97, 125, 125] : List Nat).length
    ∧ (process_content_stream default_find (fun _ => none)
        { dict := [], content := [72, 105, 32, 123, 123, 97, 125, 125] }).1.content[0]?
      = ([72, 105, 32, 123, 123, 97, 125, 125] : List Nat)[0]?
    ∧ (process_content_stream default_find (fun _ => none)
        { dict := [], content := [72, 105, 32, 123, 123, 97, 125, 125] }).1.content[3 + 1]?
      = some 32 := by
  have h := c1_length_and_frame default_find (fun _ => none)
    { dict := [], content := [72, 105, 32, 123, 123, 97, 125, 125] } default_find_wf (by decide)
  exact ⟨h.1, h.2.1 0 (by decide), h.2.2 (3, 5) (by decide) 1 (by decide)⟩

/-- **C2, counterexample.**  The claim as stated fails: on a stream that
carries a compression filter which the codec can decode, the in-place
`Stream::decompress` performed before matching replaces the payload by the
decoded bytes, removes the Filter entry and resets Length — even when the
pattern then has zero matches.  Count 0 is still returned, but neither the
payload nor the dictionary is byte-for-byte identical to the input. -/
theorem c2_counterexample :
    process_content_stream default_find (fun _ => some [65])
        { dict := [("Filter", PObj.name "FlateDecode"), ("Length", PObj.integer 4)],
          content := [1, 2, 3, 4] }
      = ({ dict := [("Length", PObj.integer 1)], content := [65] }, 0)
    ∧ ({ dict := [("Length", PObj.integer 1)], content := [65] } : Stream).content
        ≠ [1, 2, 3, 4]
    ∧ dget [("Length", PObj.integer 1)] "Filter"
        ≠ dget [("Filter", PObj.name "FlateDecode"), ("Length", PObj.integer 4)] "Filter" := by
  refine ⟨by decide, by decide, by decide⟩

/-- **C2 (amended).**  For every stream on which the decompression step is
the identity (no compression filter present, or the codec fails, so the
stream survives `Stream::decompress` unchanged) and in which the pattern
has zero matches, `process_content_stream` returns the stream untouched —
payload and every dictionary entry byte-for-byte identical — with count
0. -/
theorem c2_noop_when_decode_noop (find : FindFn) (dec : Codec) (s : Stream)
    (hdec : decompress dec s = s)
    (hzero : find (utf8DecodeLossy s.content) = []) :
    process_content_stream find dec s = (s, 0) := by
  have h := process_of_zero find dec s (by rw [hdec]; exact hzero)
  rwa [hdec] at h

/-- **C2, witness.**  A stream whose filter the codec cannot decode and
whose raw payload contains no tag is returned untouched with count 0. -/
theorem c2_witness :
    decompress (fun _ => none)
        { dict := [("Filter", PObj.name "Mystery")], content := [72, 105] }
      = { dict := [("Filter", PObj.name "Mystery")], content := [72, 105] }
    ∧ process_content_stream default_find (fun _ => none)
        { dict := [("Filter", PObj.name "Mystery")], content := [72, 105] }
      = ({ dict := [("Filter", PObj.name "Mystery")], content := [72, 105] }, 0) :=
  ⟨rfl, c2_noop_when_decode_noop default_find (fun _ => none)
    { dict := [("Filter", PObj.name "Mystery")], content := [72, 105] } rfl (by decide)⟩

/-- **C3.**  Whenever the payload is rewritten (count > 0), the committed
dictionary's Length entry is exactly the byte length of the new payload,
and neither a Filter nor a DecodeParms entry remains. -/
theorem c3_metadata_consistency (find : FindFn) (dec : Codec) (s : Stream)
    (h : 0 < (process_content_stream find dec s).2) :
    dget (process_content_stream find dec s).1.dict "Length"
        = some (PObj.integer (Int.ofNat (process_content_stream find dec s).1.content.length))
    ∧ dget (process_content_stream find dec s).1.dict "Filter" = none
    ∧ dget (process_content_stream find dec s).1.dict "DecodeParms" = none := by
  rw [process_count] at h
  rw [process_of_pos find dec s h]
  dsimp only
  refine ⟨dget_dset_self _ _ _, ?_, ?_⟩
  · rw [dget_dset_ne _ _ (by decide), dget_dremove_ne _ (by decide), dget_dremove_self]
  · rw [dget_dset_ne _ _ (by decide), dget_dremove_self]

/-- **C3, witness.**  The metadata fix-up on a concrete compressed stream
whose decoded payload holds one tag. -/
theorem c3_witness :
    0 < (process_content_stream default_find (fun _ => some [123, 123, 97, 125, 125])
        { dict := [("Filter", PObj.name "FlateDecode"), ("DecodeParms", PObj.other 3)],
          content := [9, 9] }).2
    ∧ dget (process_content_stream default_find (fun _ => some [123, 123, 97, 125, 125])
        { dict := [("Filter", PObj.name "FlateDecode"), ("DecodeParms", PObj.other 3)],
          content := [9, 9] }).1.dict "Filter" = none :=
  ⟨by decide,
    (c3_metadata_consistency default_find (fun _ => some [123, 123, 97, 125, 125])
      { dict := [("Filter", PObj.name "FlateDecode"), ("DecodeParms", PObj.other 3)],
        content := [9, 9] } (by decide)).2.1⟩

/-- **C5.**  Re-running the stream rewriter with the default pattern on the
result of a rewriting pass (count > 0) finds zero matches and returns the
stream unchanged with count 0, for any codec on the second pass: the filler
spaces never produce a new default-pattern match, the committed payload
re-decodes to exactly the replaced text, and the committed dictionary has
no Filter entry so the second decompression is a no-op. -/
theorem c5_idempotent (dec dec2 : Codec) (s : Stream)
    (h : 0 < (process_content_stream default_find dec s).2) :
    process_content_stream default_find dec2 (process_content_stream default_find dec s).1
      = ((process_content_stream default_find dec s).1, 0) := by
  rw [process_count] at h
  rw [process_of_pos default_find dec s h]
  dsimp only
  have hf : dget (dset (dremove (dremove (decompress dec s).dict "Filter") "DecodeParms")
      "Length" (PObj.integer (Int.ofNat (utf8Encode (replaceSpansFrom
        (utf8DecodeLossy (decompress dec s).content) 0
        (default_find (utf8DecodeLossy (decompress dec s).content)))).length)))
      "Filter" = none := by
    rw [dget_dset_ne _ _ (by decide), dget_dremove_ne _ (by decide), dget_dremove_self]
  have h1 : decompress dec2
      ({ dict := dset (dremove (dremove (decompress dec s).dict "Filter") "DecodeParms")
           "Length" (PObj.integer (Int.ofNat (utf8Encode (replaceSpansFrom
             (utf8DecodeLossy (decompress dec s).content) 0
             (default_find (utf8DecodeLossy (decompress dec s).content)))).length))
         content := utf8Encode (replaceSpansFrom
           (utf8DecodeLossy (decompress dec s).content) 0
           (default_find (utf8DecodeLossy (decompress dec s).content))) } : Stream)
      = { dict := dset (dremove (dremove (decompress dec s).dict "Filter") "DecodeParms")
            "Length" (PObj.integer (Int.ofNat (utf8Encode (replaceSpansFrom
              (utf8DecodeLossy (decompress dec s).content) 0
              (default_find (utf8DecodeLossy (decompress dec s).content)))).length))
          content := utf8Encode (replaceSpansFrom
            (utf8DecodeLossy (decompress dec s).content) 0
            (default_find (utf8DecodeLossy (decompress dec s).content))) } :=
    decompress_no_filter dec2 hf
  have h3 : default_find (utf8DecodeLossy (utf8Encode (replaceSpansFrom
      (utf8DecodeLossy (decompress dec s).content) 0
      (default_find (utf8DecodeLossy (decompress dec s).content))))) = [] := by
    rw [utf8DecodeLossy_encode]
    exact default_find_scan_nil (utf8DecodeLossy (decompress dec s).content)
  have h4 := process_of_zero default_find dec2 _ (by rw [h1]; exact h3)
  rw [h1] at h4
  exact h4

/-- **C5, witness.**  A concrete first pass with one tag followed by a
second pass. -/
theorem c5_witness :
    0 < (process_content_stream default_find (fun _ => none)
        { dict := [], content := [123, 123, 97, 125, 125] }).2
    ∧ process_content_stream default_find (fun _ => none)
        (process_content_stream default_find (fun _ => none)
          { dict := [], content := [123, 123, 97, 125, 125] }).1
      = ((process_content_stream default_find (fun _ => none)
          { dict := [], content := [123, 123, 97, 125, 125] }).1, 0) :=
  ⟨by decide, c5_idempotent (fun _ => none) (fun _ => none)
    { dict := [], content := [123, 123, 97, 125, 125] } (by decide)⟩

/-- **C4.**  The total count returned by the document rewrite is the sum,
over the visited objects in enumeration order, of the per-stream counts of
`process_content_stream`; non-stream objects contribute zero and cause no
error, and on a successful run `remove_tags_from_pdf` reports exactly that
sum. -/
theorem c4_count_accuracy :
    (∀ (find : FindFn) (dec : Codec) (objs : List (Nat × PdfObj)),
      (rewriteObjects find dec objs).2 = (objs.map (objCount find dec)).sum)
    ∧ ∀ (L : List Nat → Except String Document) (C : String → Except String FindFn)
        (S : Document → Except String (List Nat)) (dec : Codec) (pdf : List Nat)
        (pat : Option String) (doc : Document) (find : FindFn) (out : List Nat),
        L pdf = Except.ok doc → compileTag C pat = Except.ok find →
        S { objects := (rewriteObjects find dec doc.objects).1 } = Except.ok out →
        remove_tags_from_pdf L C S dec pdf pat
          = Except.ok (out, (doc.objects.map (objCount find dec)).sum) := by
  refine ⟨rewriteObjects_count, ?_⟩
  intro L C S dec pdf pat doc find out hL hC hS
  rw [remove_tags_from_pdf_ok L C S dec pdf pat hL hC hS, rewriteObjects_count]

/-- **C4, witness.**  A two-object document: one stream with one tag, one
non-stream object. -/
theorem c4_witness :
    remove_tags_from_pdf
        (fun _ => Except.ok { objects :=
          [(1, PdfObj.stream { dict := [], content := [123, 123, 97, 125, 125] }),
           (2, PdfObj.other 7)] })
        (fun _ => Except.error "unused") (fun _ => Except.ok [55]) (fun _ => none)
        [37] none
      = Except.ok ([55], 1) := by
  have h := (c4_count_accuracy).2
    (fun _ => Except.ok { objects :=
      [(1, PdfObj.stream { dict := [], content := [123, 123, 97, 125, 125] }),
       (2, PdfObj.other 7)] })
    (fun _ => Except.error "unused") (fun _ => Except.ok [55]) (fun _ => none)
    [37] none
    { objects := [(1, PdfObj.stream { dict := [], content := [123, 123, 97, 125, 125] }),
                  (2, PdfObj.other 7)] }
    default_find [55] rfl rfl rfl
  rw [h]
  rfl

/-- **C6.**  The stream rewriter is total by construction (it returns a
`Stream × Nat`, there is no error channel), and a decode failure degrades
to scanning the raw stored bytes: when the codec fails on the payload, the
returned count is the number of raw-byte-level matches, and a positive
count still commits the replacement computed from the raw bytes. -/
theorem c6_decode_failure_degrades (find : FindFn) (dec : Codec) (s : Stream)
    (h : dec s.content = none) :
    (process_content_stream find dec s).2 = (find (utf8DecodeLossy s.content)).length
    ∧ (0 < (find (utf8DecodeLossy s.content)).length →
        (process_content_stream find dec s).1.content
          = utf8Encode (replaceSpansFrom (utf8DecodeLossy s.content) 0
              (find (utf8DecodeLossy s.content)))) := by
  have hd := decompress_dec_none h
  constructor
  · rw [process_count, hd]
  · intro hpos
    have hp : 0 < (find (utf8DecodeLossy (decompress dec s).content)).length := by
      rw [hd]; exact hpos
    rw [process_of_pos find dec s hp]
    dsimp only
    rw [hd]

/-- **C6, witness.**  A stream with an unrecognized filter whose raw bytes
contain one byte-level match: the rewrite proceeds on the raw bytes. -/
theorem c6_witness :
    ((fun _ => none : Codec) ([123, 123, 97, 125, 125] : List Nat) = none)
    ∧ (process_content_stream default_find (fun _ => none)
        { dict := [("Filter", PObj.name "Corrupt")], content := [123, 123, 97, 125, 125] }).2
      = (default_find (utf8DecodeLossy [123, 123, 97, 125, 125])).length :=
  ⟨rfl, (c6_decode_failure_degrades default_find (fun _ => none)
    { dict := [("Filter", PObj.name "Corrupt")], content := [123, 123, 97, 125, 125] } rfl).1⟩

/-- **C7.**  `remove_tags_from_pdf` errs exactly when parsing, pattern
compilation or serialization errs, and each failure pre-empts the later
stages: a parse failure is returned no matter what the compiler, the
serializer or the codec would do; a pattern failure is returned without any
dependence on the document's streams; a serialize failure discards the
work; and otherwise the serialized bytes and the accumulated count are
returned.  The `Except` result type carries no bytes in the error cases, so
no partial output can be returned. -/
theorem c7_error_characterization :
    (∀ (L : List Nat → Except String Document) (C : String → Except String FindFn)
        (S : Document → Except String (List Nat)) (dec : Codec) (pdf : List Nat)
        (pat : Option String) (e : String), L pdf = Except.error e →
        remove_tags_from_pdf L C S dec pdf pat
          = Except.error ("Failed to load PDF: " ++ e))
    ∧ (∀ (L : List Nat → Except String Document) (C : String → Except String FindFn)
        (S : Document → Except String (List Nat)) (dec : Codec) (pdf : List Nat)
        (pat : Option String) (doc : Document) (e : String),
        L pdf = Except.ok doc → compileTag C pat = Except.error e →
        remove_tags_from_pdf L C S dec pdf pat
          = Except.error ("Invalid regex pattern: " ++ e))
    ∧ (∀ (L : List Nat → Except String Document) (C : String → Except String FindFn)
        (S : Document → Except String (List Nat)) (dec : Codec) (pdf : List Nat)
        (pat : Option String) (doc : Document) (find : FindFn) (e : String),
        L pdf = Except.ok doc → compileTag C pat = Except.ok find →
        S { objects := (rewriteObjects find dec doc.objects).1 } = Except.error e →
        remove_tags_from_pdf L C S dec pdf pat
          = Except.error ("Failed to save PDF: " ++ e))
    ∧ (∀ (L : List Nat → Except String Document) (C : String → Except String FindFn)
        (S : Document → Except String (List Nat)) (dec : Codec) (pdf : List Nat)
        (pat : Option String) (doc : Document) (find : FindFn) (out : List Nat),
        L pdf = Except.ok doc → compileTag C pat = Except.ok find →
        S { objects := (rewriteObjects find dec doc.objects).1 } = Except.ok out →
        remove_tags_from_pdf L C S dec pdf pat
          = Except.ok (out, (rewriteObjects find dec doc.objects).2)) := by
  refine ⟨?_, ?_, ?_, ?_⟩
  · intro L C S dec pdf pat e h
    exact remove_tags_from_pdf_load_err L C S dec pdf pat h
  · intro L C S dec pdf pat doc e hL hC
    exact remove_tags_from_pdf_pattern_err L C S dec pdf pat hL hC
  · intro L C S dec pdf pat doc find e hL hC hS
    exact remove_tags_from_pdf_save_err L C S dec pdf pat hL hC hS
  · intro L C S dec pdf pat doc find out hL hC hS
    exact remove_tags_from_pdf_ok L C S dec pdf pat hL hC hS

/-- **C7, witness.**  The parse-failure branch at concrete arguments: the
error is the wrapped parse diagnostic, even though the supplied pattern
compiler and serializer also fail. -/
theorem c7_witness :
    remove_tags_from_pdf (fun _ => Except.error "truncated")
        (fun _ => Except.error "bad pattern") (fun _ => Except.error "bad save")
        (fun _ => none) [1, 2, 3] (some "x")
      = Except.error ("Failed to load PDF: " ++ "truncated") :=
  c7_error_characterization.1 (fun _ => Except.error "truncated")
    (fun _ => Except.error "bad pattern") (fun _ => Except.error "bad save")
    (fun _ => none) [1, 2, 3] (some "x") "truncated" rfl

/-- **C8 (Scenario A).**  A one-stream document (plus one non-stream
object) whose uncompressed content holds the 15 ASCII bytes of
"Hello ..name..!" with one default tag of 8 bytes: the rewrite with no
explicit pattern returns count 1; the stream's payload has the tag replaced
by exactly 8 spaces; its dictionary has no Filter entry and its Length
entry equals the new payload's byte length, 15. -/
theorem c8_scenario_a :
    remove_tags_from_pdf
        (fun _ => Except.ok { objects :=
          [(1, PdfObj.stream ⟨[("Length", PObj.integer 15)],
              [72, 101, 108, 108, 111, 32, 123, 123, 110, 97, 109, 101, 125, 125, 33]⟩),
           (2, PdfObj.other 7)] })
        (fun _ => Except.error "unused") (fun _ => Except.ok [88]) (fun _ => none)
        [37] none
      = Except.ok ([88], 1)
    ∧ rewriteObjects default_find (fun _ => none)
        [(1, PdfObj.stream ⟨[("Length", PObj.integer 15)],
            [72, 101, 108, 108, 111, 32, 123, 123, 110, 97, 109, 101, 125, 125, 33]⟩),
         (2, PdfObj.other 7)]
      = ([(1, PdfObj.stream ⟨[("Length", PObj.integer 15)],
            [72, 101, 108, 108, 111, 32, 32, 32, 32, 32, 32, 32, 32, 32, 33]⟩),
          (2, PdfObj.other 7)], 1)
    ∧ dget [("Length", PObj.integer 15)] "Filter" = none
    ∧ PObj.integer (Int.ofNat ([72, 101, 108, 108, 111, 32, 32, 32, 32, 32, 32, 32, 32,
        32, 33] : List Nat).length) = PObj.integer 15 := by
  refine ⟨?_, by decide, by decide, by decide⟩
  have h := @remove_tags_from_pdf_ok
    (fun _ => Except.ok { objects :=
      [(1, PdfObj.stream ⟨[("Length", PObj.integer 15)],
          [72, 101, 108, 108, 111, 32, 123, 123, 110, 97, 109, 101, 125, 125, 33]⟩),
       (2, PdfObj.other 7)] })
    (fun _ => Except.error "unused") (fun _ => Except.ok [88]) (fun _ => none)
    [37] none
    { objects :=
      [(1, PdfObj.stream ⟨[("Length", PObj.integer 15)],
          [72, 101, 108, 108, 111, 32, 123, 123, 110, 97, 109, 101, 125, 125, 33]⟩),
       (2, PdfObj.other 7)] }
    default_find [88] rfl rfl rfl
  rw [h]
  rfl

/-- **C9.**  When the base64 decoder rejects the request payload, the
handler answers with the client-error (400) response whose body has
`success = false` and a message, and the response does not depend on the
parser, compiler, serializer or codec: the core is never invoked. -/
theorem c9_bad_base64 (b64dec : String → Except String (List Nat))
    (b64enc : List Nat → String) (L : List Nat → Except String Document)
    (C : String → Except String FindFn) (S : Document → Except String (List Nat))
    (dec : Codec) (req : RemoveTagsRequest) (e : String)
    (h : b64dec req.pdf_base64 = Except.error e) :
    remove_tags b64dec b64enc L C S dec req
      = HttpResponse.badRequestJson
          { success := false, message := "Invalid base64 data: " ++ e } := by
  unfold remove_tags
  rw [h]

/-- **C9, witness.**  A concrete failing decoder. -/
theorem c9_witness :
    remove_tags (fun _ => Except.error "invalid byte") (fun _ => "")
        (fun _ => Except.ok { objects := [] }) (fun _ => Except.error "no")
        (fun _ => Except.ok []) (fun _ => none)
        { pdf_base64 := "!!!", tag_pattern := none }
      = HttpResponse.badRequestJson
          { success := false, message := "Invalid base64 data: " ++ "invalid byte" } :=
  c9_bad_base64 (fun _ => Except.error "invalid byte") (fun _ => "")
    (fun _ => Except.ok { objects := [] }) (fun _ => Except.error "no")
    (fun _ => Except.ok []) (fun _ => none)
    { pdf_base64 := "!!!", tag_pattern := none } "invalid byte" rfl

/-- **C10.**  Whenever a payload is rewritten (count > 0), the committed
payload is the UTF-8 encoding of a character list, hence always valid
UTF-8; and the lossy decode step replaces invalid byte sequences even
outside the matched spans by the replacement character's bytes, as the
concrete stream of `c1_counterexample`'s input shows: its leading byte 255,
outside the single matched span, is committed as the three bytes
239,191,189 (U+FFFD), followed by the five filler spaces. -/
theorem c10_utf8_commit :
    (∀ (find : FindFn) (dec : Codec) (s : Stream),
      0 < (process_content_stream find dec s).2 →
      ValidUtf8 (process_content_stream find dec s).1.content)
    ∧ (process_content_stream default_find (fun _ => none)
        { dict := [("Length", PObj.integer 6)], content := [255, 123, 123, 97, 125, 125] }).1.content
      = [239, 191, 189] ++ List.replicate 5 32 := by
  constructor
  · intro find dec s h
    rw [process_count] at h
    rw [process_of_pos find dec s h]
    exact validUtf8_encode _
  · decide

/-- **C10, witness.**  The universal part applied at a concrete rewritten
stream. -/
theorem c10_witness :
    0 < (process_content_stream default_find (fun _ => none)
        { dict := [], content := [255, 123, 123, 97, 125, 125] }).2
    ∧ ValidUtf8 (process_content_stream default_find (fun _ => none)
        { dict := [], content := [255, 123, 123, 97, 125, 125] }).1.content :=
  ⟨by decide, c10_utf8_commit.1 default_find (fun _ => none)
    { dict := [], content := [255, 123, 123, 97, 125, 125] } (by decide)⟩

end PdfTagRemover
